import Mathlib

/-!
Verification of the enc_mnist-rs trusted-application (TA) code.

The development shallowly embeds:
  * `src/ta/inference/src/key_manager.rs` — the key-manager client:
    `encrypt_data`, `decrypt_data`, `encrypt_chunk`, `decrypt_chunk`,
    `ensure_aes_key` / `require_aes_key` behaviour;
  * `src/ta/inference/src/main.rs` — the command handlers
    (`invoke_store_key`, `invoke_begin_model_load`,
    `invoke_push_encrypted_chunk`, `invoke_finalize_model_load`,
    `invoke_inference`, `ensure_key_manager`) and the dispatcher;
  * `src/ta/inference/src/secure_storage.rs` — the persistent objects,
    modelled as two optional blobs of the TA state.

Bytes are natural numbers (values below 256 in any run of the real code;
no theorem below needs the bound).  Fallible Rust functions returning
`Result<T>` become `Except ErrorKind T`.  The AES-CBC chunk primitive is
implemented by a separate key-manager TA (`key_manager-rs`, not part of
this source tree); it is modelled from the spec as cipher-block chaining
over an abstract block permutation, with the updated IV returned to the
caller being the last ciphertext block, exactly as
`encrypt_chunk`/`decrypt_chunk` thread it.  The protocol constant
`proto::CHUNK_SIZE` is likewise not part of this source tree; every
definition takes the window size as an explicit parameter `w` and applies
`max w 16`, mirroring `cmp::max(CHUNK_SIZE, AES_BLOCK_SIZE)` in the code.
-/

namespace EncMnist

/-- Subset of `optee_utee::ErrorKind` used by the TA code. -/
inductive ErrorKind where
  | BadParameters
  | ItemNotFound
  | ShortBuffer
  | CorruptObject
  | BadState
deriving DecidableEq, Repr

/-- Byte strings; each entry is one byte. -/
abbrev Bytes := List Nat

/-- `AES_BLOCK_SIZE` from `proto/src/key_manager.rs`. -/
def AES_BLOCK_SIZE : Nat := 16

/-- `AES_KEY_SIZE` from `proto/src/key_manager.rs`. -/
def AES_KEY_SIZE : Nat := 32

/-- Bytewise xor of two buffers (CBC whitening step). -/
def xorBytes (a b : Bytes) : Bytes := List.zipWith Nat.xor a b

/-- `(n as u32).to_le_bytes()`: the little-endian 4-byte length field
written by `encrypt_data` (the `usize → u32` cast truncates mod 2^32). -/
def u32le (n : Nat) : Bytes :=
  [n % 256, n / 256 % 256, n / 65536 % 256, n / 16777216 % 256]

/-- `u32::from_le_bytes` on the first four bytes, as read by
`decrypt_data`. Missing bytes default to 0 (never happens in the code,
which checks the length first). -/
def u32dec (l : Bytes) : Nat :=
  l.getD 0 0 + 256 * l.getD 1 0 + 65536 * l.getD 2 0 + 16777216 * l.getD 3 0

/-- `Vec::resize(n, 0)`: truncate to `n` or extend with zero bytes. -/
def resize (l : Bytes) (n : Nat) : Bytes :=
  l.take n ++ List.replicate (n - l.length) 0

/-- Fuel-indexed splitting of a buffer into 16-byte blocks; the fuel is
structural so that closed instances evaluate. -/
def toBlocksF : Nat → Bytes → List Bytes
  | 0, _ => []
  | fuel + 1, l => if l = [] then [] else l.take 16 :: toBlocksF fuel (l.drop 16)

/-- Split a buffer into its 16-byte CBC blocks (last one may be short if
the buffer is not block aligned; all callers check alignment first). -/
def toBlocks (l : Bytes) : List Bytes := toBlocksF l.length l

/-- Modelled from the spec: the key-manager TA's `EncryptAesChunk`
(`key_manager-rs`, not in this tree) runs AES-CBC over the blocks of the
input: each ciphertext block is the block cipher applied to the xor of
the running IV and the plaintext block, and the IV handed back to the
client is the last ciphertext block. `E` is the keyed block permutation.
Returns (ciphertext blocks, updated IV). -/
def cbcEncBlocks (E : Bytes → Bytes) : Bytes → List Bytes → List Bytes × Bytes
  | iv, [] => ([], iv)
  | iv, b :: bs =>
    let c := E (xorBytes iv b)
    let r := cbcEncBlocks E c bs
    (c :: r.1, r.2)

/-- Modelled from the spec: the key-manager TA's `DecryptAesChunk`:
each plaintext block is the xor of the running IV with the block-cipher
inverse `D` of the ciphertext block, and the IV handed back is the last
ciphertext block. Returns (plaintext blocks, updated IV). -/
def cbcDecBlocks (D : Bytes → Bytes) : Bytes → List Bytes → List Bytes × Bytes
  | iv, [] => ([], iv)
  | iv, c :: cs =>
    let p := xorBytes iv (D c)
    let r := cbcDecBlocks D c cs
    (p :: r.1, r.2)

/-- One CBC pass over a whole byte buffer (ciphertext bytes only). -/
def cbcEncryptBytes (E : Bytes → Bytes) (iv data : Bytes) : Bytes :=
  (cbcEncBlocks E iv (toBlocks data)).1.flatten

/-- One CBC decryption pass over a whole byte buffer. -/
def cbcDecryptBytes (D : Bytes → Bytes) (iv ct : Bytes) : Bytes :=
  (cbcDecBlocks D iv (toBlocks ct)).1.flatten

/-- `KeyManagerClient::encrypt_chunk` (key_manager.rs:146-176): rejects
inputs that are not multiples of `AES_BLOCK_SIZE`, otherwise encrypts the
chunk via the key-manager TA and threads the updated IV back. Returns
(ciphertext, updated IV). -/
def encrypt_chunk (E : Bytes → Bytes) (input iv : Bytes) :
    Except ErrorKind (Bytes × Bytes) :=
  if input.length % AES_BLOCK_SIZE ≠ 0 then .error .BadParameters
  else
    let r := cbcEncBlocks E iv (toBlocks input)
    .ok (r.1.flatten, r.2)

/-- `KeyManagerClient::decrypt_chunk` (key_manager.rs:178-208). -/
def decrypt_chunk (D : Bytes → Bytes) (input iv : Bytes) :
    Except ErrorKind (Bytes × Bytes) :=
  if input.length % AES_BLOCK_SIZE ≠ 0 then .error .BadParameters
  else
    let r := cbcDecBlocks D iv (toBlocks input)
    .ok (r.1.flatten, r.2)

/-- The `while offset < data_with_len.len()` loop of `encrypt_data`
(key_manager.rs:99-104), with window size `cs` and structural fuel
(`fuel ≥ data.length` makes the fuel irrelevant since `cs ≥ 1` in every
call). Each window is `encrypt_chunk`ed with the threaded IV. -/
def encryptLoopF (E : Bytes → Bytes) (cs : Nat) :
    Nat → Bytes → Bytes → Except ErrorKind (Bytes × Bytes)
  | _, iv, [] => .ok ([], iv)
  | 0, iv, _ => .ok ([], iv)
  | fuel + 1, iv, data =>
    match encrypt_chunk E (data.take cs) iv with
    | .error e => .error e
    | .ok (c, iv2) =>
      match encryptLoopF E cs fuel iv2 (data.drop cs) with
      | .error e => .error e
      | .ok (rest, ivf) => .ok (c ++ rest, ivf)

/-- The `while offset < ciphertext.len()` loop of `decrypt_data`
(key_manager.rs:125-133). -/
def decryptLoopF (D : Bytes → Bytes) (cs : Nat) :
    Nat → Bytes → Bytes → Except ErrorKind (Bytes × Bytes)
  | _, iv, [] => .ok ([], iv)
  | 0, iv, _ => .ok ([], iv)
  | fuel + 1, iv, data =>
    match decrypt_chunk D (data.take cs) iv with
    | .error e => .error e
    | .ok (p, iv2) =>
      match decryptLoopF D cs fuel iv2 (data.drop cs) with
      | .error e => .error e
      | .ok (rest, ivf) => .ok (p ++ rest, ivf)

/-- The padded buffer built by `encrypt_data` (key_manager.rs:84-90):
`data_with_len` is the 4-byte little-endian length field followed by the
data, then `resize` zero-pads it to the next multiple of
`AES_BLOCK_SIZE`. -/
def paddedPlain (data : Bytes) : Bytes :=
  resize (u32le data.length ++ data)
    (((u32le data.length ++ data).length + AES_BLOCK_SIZE - 1) / AES_BLOCK_SIZE * AES_BLOCK_SIZE)

/-- `KeyManagerClient::encrypt_data` (key_manager.rs:80-106), with the
key-manager TA's key slot made explicit. `st` is the TA's current AES key
(if any), `fresh` the key `GenerateAesKey` would produce, `iv` the random
IV `GenerateRandom` returns, `w` the `proto::CHUNK_SIZE` constant, `E`
the keyed block permutation. `ensure_aes_key` installs `fresh` when no
key exists; the data is prefixed with its little-endian `u32` length,
zero-padded to a block boundary (`paddedPlain`), and encrypted window by
window with the IV threaded through `encrypt_chunk`. Returns (result,
key slot after the call); on success the result is `IV ‖ ciphertext`. -/
def encrypt_data (E : Bytes → Bytes → Bytes) (st : Option Bytes)
    (fresh iv : Bytes) (w : Nat) (data : Bytes) :
    Except ErrorKind Bytes × Option Bytes :=
  let k := st.getD fresh
  let padded := paddedPlain data
  let cs := max w AES_BLOCK_SIZE
  match encryptLoopF (E k) cs padded.length iv padded with
  | .error e => (.error e, some k)
  | .ok (c, _) => (.ok (iv ++ c), some k)

/-- `KeyManagerClient::decrypt_data` (key_manager.rs:108-144).
`require_aes_key` fails with `ItemNotFound` when the key slot is empty;
then the input must be at least two blocks long and its ciphertext part
block aligned; the leading block is the IV; after the chunked CBC
decryption the 4-byte little-endian length field must fit in the
decrypted bytes, and exactly that many bytes (after the field) are
returned. -/
def decrypt_data (D : Bytes → Bytes → Bytes) (st : Option Bytes)
    (w : Nat) (encrypted : Bytes) : Except ErrorKind Bytes :=
  match st with
  | none => .error .ItemNotFound
  | some k =>
    if encrypted.length < AES_BLOCK_SIZE * 2 then .error .BadParameters
    else
      let iv := encrypted.take AES_BLOCK_SIZE
      let ciphertext := encrypted.drop AES_BLOCK_SIZE
      if ciphertext.length % AES_BLOCK_SIZE ≠ 0 then .error .BadParameters
      else
        let cs := max w AES_BLOCK_SIZE
        match decryptLoopF (D k) cs ciphertext.length iv ciphertext with
        | .error e => .error e
        | .ok (decrypted, _) =>
          if decrypted.length < 4 then .error .BadParameters
          else
            let originalLen := u32dec (decrypted.take 4)
            if decrypted.length < originalLen + 4 then .error .BadParameters
            else .ok ((decrypted.drop 4).take originalLen)

/-- Encrypting an explicit list of transport windows, threading the IV
through `encrypt_chunk` exactly as the `encrypt_data` loop does. -/
def encryptChunks (E : Bytes → Bytes) (iv : Bytes) :
    List Bytes → Except ErrorKind (Bytes × Bytes)
  | [] => .ok ([], iv)
  | c :: rest =>
    match encrypt_chunk E c iv with
    | .error e => .error e
    | .ok (ct, iv2) =>
      match encryptChunks E iv2 rest with
      | .error e => .error e
      | .ok (cts, ivf) => .ok (ct ++ cts, ivf)

/-- The mutable state of the inference TA (`main.rs` statics plus the two
secure-storage objects of `secure_storage.rs`). `M` is the deserialized
model representation (`Model<NdArray>`, opaque here).
  * `keyStore`  — the `ta_unique_aes_key` persistent object;
  * `storedModel` — the `ta_persisted_model` persistent object;
  * `keyMgr` — the `KEY_MANAGER` static (a key manager holding its key);
  * `model` — the `MODEL` static;
  * `modelBuf` — the `MODEL_BUF` static. -/
structure TaState (M : Type) where
  keyStore : Option Bytes
  storedModel : Option Bytes
  keyMgr : Option Bytes
  model : Option M
  modelBuf : Bytes
deriving DecidableEq, Repr

/-- `store_ta_aes_key` (secure_storage.rs:6-28): create-or-overwrite the
key object. -/
def store_ta_aes_key {M : Type} (st : TaState M) (key : Bytes) : TaState M :=
  { st with keyStore := some key }

/-- `load_ta_aes_key` (secure_storage.rs:30-56): `ItemNotFound` when the
object is absent, `BadParameters` when its size is not 32 bytes. -/
def load_ta_aes_key {M : Type} (st : TaState M) : Except ErrorKind Bytes :=
  match st.keyStore with
  | none => .error .ItemNotFound
  | some k => if k.length ≠ 32 then .error .BadParameters else .ok k

/-- `invoke_store_key` (main.rs:180-196, command 3): a key buffer of any
length other than 32 is rejected; otherwise the key is persisted and a
key manager holding it is installed. Returns (result, new state). -/
def invoke_store_key {M : Type} (st : TaState M) (keyBuf : Bytes) :
    Except ErrorKind Unit × TaState M :=
  if keyBuf.length ≠ 32 then (.error .BadParameters, st)
  else (.ok (), { st with keyStore := some keyBuf, keyMgr := some keyBuf })

/-- `ensure_key_manager` (main.rs:198-206): `ItemNotFound` when no key
object exists; otherwise lazily installs `KEY_MANAGER` from storage. -/
def ensure_key_manager {M : Type} (st : TaState M) :
    Except ErrorKind (TaState M) :=
  if st.keyStore.isNone then .error .ItemNotFound
  else if st.keyMgr.isSome then .ok st
  else
    match load_ta_aes_key st with
    | .error e => .error e
    | .ok k => .ok { st with keyMgr := some k }

/-- `invoke_begin_model_load` (main.rs:222-228, command 4). -/
def invoke_begin_model_load {M : Type} (st : TaState M) :
    Except ErrorKind Unit × TaState M :=
  match ensure_key_manager st with
  | .error e => (.error e, st)
  | .ok st1 => (.ok (), { st1 with modelBuf := [] })

/-- `invoke_push_encrypted_chunk` (main.rs:230-240, command 5): empty
input returns success immediately; otherwise the bytes are appended to
`MODEL_BUF` as they are. -/
def invoke_push_encrypted_chunk {M : Type} (st : TaState M) (enc : Bytes) :
    Except ErrorKind Unit × TaState M :=
  if enc = [] then (.ok (), st)
  else (.ok (), { st with modelBuf := st.modelBuf ++ enc })

/-- `invoke_finalize_model_load` (main.rs:242-266, command 6): resolve
the key manager, take the accumulated buffer (leaving it empty), decrypt
it, deserialize (`Model::import`, modelled by `importM`), and install the
model on success. `D` and `w` are as in `decrypt_data`. -/
def invoke_finalize_model_load {M : Type} (D : Bytes → Bytes → Bytes)
    (w : Nat) (importM : Bytes → Option M) (st : TaState M) :
    Except ErrorKind Unit × TaState M :=
  match ensure_key_manager st with
  | .error e => (.error e, st)
  | .ok st1 =>
    let encrypted := st1.modelBuf
    let st2 := { st1 with modelBuf := [] }
    match st2.keyMgr with
    | none => (.error .BadState, st2)
    | some k =>
      match decrypt_data D (some k) w encrypted with
      | .error e => (.error e, st2)
      | .ok plain =>
        match importM plain with
        | none => (.error .BadParameters, st2)
        | some m => (.ok (), { st2 with model := some m })

/-- `invoke_inference` (main.rs:97-139, command 0): an empty image batch
is `BadParameters`; a missing resident model is `CorruptObject`;
otherwise the forward pass (modelled by `fwd`) yields one class byte per
image. The state is never modified. -/
def invoke_inference {M Img : Type} (fwd : M → Img → Nat) (st : TaState M)
    (imgs : List Img) : Except ErrorKind Bytes × TaState M :=
  if imgs.isEmpty then (.error .BadParameters, st)
  else
    match st.model with
    | none => (.error .CorruptObject, st)
    | some m => (.ok (imgs.map (fwd m)), st)

/-- `invoke_export_aes_key` (main.rs:209-220, command 7): returns the
stored key bytes; `export_ta_aes_key` is not present in
secure_storage.rs, so it is modelled from the spec (`export_key`: key
exists in storage → returns raw key bytes) as a storage read. -/
def invoke_export_aes_key {M : Type} (st : TaState M) :
    Except ErrorKind Bytes × TaState M :=
  match load_ta_aes_key st with
  | .error e => (.error e, st)
  | .ok k => (.ok k, st)

/-- `invoke_command` (main.rs:77-95): the numeric dispatcher, built
without the optional `encrypt-model` feature (command 1 is compiled out
and command 2 is commented out in the source, so both fall through to
`BadParameters`). Commands that return no payload return `[]`. -/
def invoke_command {M Img : Type} (D : Bytes → Bytes → Bytes) (w : Nat)
    (importM : Bytes → Option M) (fwd : M → Img → Nat) (cmdId : Nat)
    (imgs : List Img) (buf : Bytes) (st : TaState M) :
    Except ErrorKind Bytes × TaState M :=
  if cmdId = 0 then
    invoke_inference fwd st imgs
  else if cmdId = 3 then
    let r := invoke_store_key st buf
    (r.1.map fun _ => [], r.2)
  else if cmdId = 4 then
    let r := invoke_begin_model_load st
    (r.1.map fun _ => [], r.2)
  else if cmdId = 5 then
    let r := invoke_push_encrypted_chunk st buf
    (r.1.map fun _ => [], r.2)
  else if cmdId = 6 then
    let r := invoke_finalize_model_load D w importM st
    (r.1.map fun _ => [], r.2)
  else if cmdId = 7 then
    invoke_export_aes_key st
  else (.error .BadParameters, st)

/-! Lemmas about block splitting. -/

theorem toBlocksF_congr (f : Nat) : ∀ (g : Nat) (l : Bytes),
    l.length ≤ f → l.length ≤ g → toBlocksF f l = toBlocksF g l := by
  induction f with
  | zero =>
    intro g l hf _
    have hl : l = [] := List.eq_nil_of_length_eq_zero (Nat.le_zero.mp hf)
    subst hl
    cases g <;> simp [toBlocksF]
  | succ f ih =>
    intro g l hf hg
    cases g with
    | zero =>
      have hl : l = [] := List.eq_nil_of_length_eq_zero (Nat.le_zero.mp hg)
      subst hl
      simp [toBlocksF]
    | succ g =>
      by_cases h : l = []
      · subst h; simp [toBlocksF]
      · have hpos : 0 < l.length := List.length_pos.mpr h
        simp only [toBlocksF, if_neg h]
        have hd : (l.drop 16).length ≤ f := by
          simp only [List.length_drop]; omega
        have hd' : (l.drop 16).length ≤ g := by
          simp only [List.length_drop]; omega
        rw [ih g (l.drop 16) hd hd']

theorem toBlocks_nil : toBlocks [] = [] := rfl

theorem toBlocks_cons (l : Bytes) (h : l ≠ []) :
    toBlocks l = l.take 16 :: toBlocks (l.drop 16) := by
  have hpos : 0 < l.length := List.length_pos.mpr h
  unfold toBlocks
  cases hl : l.length with
  | zero => omega
  | succ n =>
    simp only [toBlocksF, if_neg h]
    have h1 : (l.drop 16).length ≤ n := by
      simp only [List.length_drop]; omega
    rw [toBlocksF_congr n (l.drop 16).length (l.drop 16) h1 (Nat.le_refl _)]

theorem flatten_toBlocks (l : Bytes) : (toBlocks l).flatten = l := by
  by_cases h : l = []
  · subst h; rfl
  · rw [toBlocks_cons l h, List.flatten_cons, flatten_toBlocks (l.drop 16),
      List.take_append_drop]
termination_by l.length
decreasing_by
  simp only [List.length_drop]
  have := List.length_pos.mpr h
  omega

theorem toBlocks_all_sixteen (l : Bytes) (h : (16:Nat) ∣ l.length) :
    ∀ b ∈ toBlocks l, b.length = 16 := by
  by_cases hl : l = []
  · subst hl; intro b hb; simp [toBlocks_nil] at hb
  · have hpos : 0 < l.length := List.length_pos.mpr hl
    rw [toBlocks_cons l hl]
    intro b hb
    rcases List.mem_cons.mp hb with hb | hb
    · subst hb
      rcases h with ⟨c, hc⟩
      simp only [List.length_take]
      omega
    · have hd : (16:Nat) ∣ (l.drop 16).length := by
        simp only [List.length_drop]
        exact Nat.dvd_sub' h (Nat.dvd_refl 16)
      exact toBlocks_all_sixteen (l.drop 16) hd b hb
termination_by l.length
decreasing_by
  simp only [List.length_drop]
  omega

theorem toBlocks_flatten_append (bs : List Bytes) (r : Bytes)
    (h : ∀ b ∈ bs, b.length = 16) :
    toBlocks (bs.flatten ++ r) = bs ++ toBlocks r := by
  induction bs with
  | nil => simp
  | cons b bs ih =>
    have hb : b.length = 16 := h b (List.mem_cons_self b bs)
    have hbs : ∀ x ∈ bs, x.length = 16 := fun x hx => h x (List.mem_cons_of_mem _ hx)
    have hne : b ++ (bs.flatten ++ r) ≠ [] := by
      intro hc
      have := congrArg List.length hc
      simp [hb] at this
    rw [List.flatten_cons, List.append_assoc, toBlocks_cons _ hne,
      List.take_left' hb, List.drop_left' hb, ih hbs, List.cons_append]

theorem toBlocks_append (a b : Bytes) (h : (16:Nat) ∣ a.length) :
    toBlocks (a ++ b) = toBlocks a ++ toBlocks b := by
  have := toBlocks_flatten_append (toBlocks a) b (toBlocks_all_sixteen a h)
  rwa [flatten_toBlocks] at this

/-! Lemmas about bytewise xor. -/

theorem xorBytes_length (a b : Bytes) :
    (xorBytes a b).length = min a.length b.length := by
  simp [xorBytes]

theorem xorBytes_cancel (a : Bytes) : ∀ b : Bytes, a.length = b.length →
    xorBytes a (xorBytes a b) = b := by
  induction a with
  | nil =>
    intro b h
    have : b = [] := List.eq_nil_of_length_eq_zero h.symm
    subst this; rfl
  | cons x xs ih =>
    intro b h
    cases b with
    | nil => simp at h
    | cons y ys =>
      simp only [xorBytes, List.zipWith_cons_cons] at *
      have hx : x.xor (x.xor y) = y := Nat.xor_cancel_left x y
      have hrest := ih ys (by simpa using h)
      simp only [xorBytes] at hrest
      rw [hx, hrest]

/-! Lemmas about the modelled CBC primitive. -/

theorem cbcEncBlocks_append (E : Bytes → Bytes) (bs : List Bytes) :
    ∀ (iv : Bytes) (cs : List Bytes),
    cbcEncBlocks E iv (bs ++ cs) =
      ((cbcEncBlocks E iv bs).1 ++ (cbcEncBlocks E (cbcEncBlocks E iv bs).2 cs).1,
       (cbcEncBlocks E (cbcEncBlocks E iv bs).2 cs).2) := by
  induction bs with
  | nil => intro iv cs; simp [cbcEncBlocks]
  | cons b bs ih => intro iv cs; simp [cbcEncBlocks, ih]

theorem cbcDecBlocks_append (D : Bytes → Bytes) (bs : List Bytes) :
    ∀ (iv : Bytes) (cs : List Bytes),
    cbcDecBlocks D iv (bs ++ cs) =
      ((cbcDecBlocks D iv bs).1 ++ (cbcDecBlocks D (cbcDecBlocks D iv bs).2 cs).1,
       (cbcDecBlocks D (cbcDecBlocks D iv bs).2 cs).2) := by
  induction bs with
  | nil => intro iv cs; simp [cbcDecBlocks]
  | cons b bs ih =>
    intro iv cs
    simp [cbcDecBlocks, ih]

theorem cbcEncBlocks_shape (E : Bytes → Bytes)
    (hE : ∀ b, b.length = 16 → (E b).length = 16) (bs : List Bytes) :
    ∀ iv : Bytes, iv.length = 16 → (∀ b ∈ bs, b.length = 16) →
    (∀ c ∈ (cbcEncBlocks E iv bs).1, c.length = 16) ∧
      (cbcEncBlocks E iv bs).2.length = 16 ∧
      (cbcEncBlocks E iv bs).1.length = bs.length := by
  induction bs with
  | nil =>
    intro iv hiv _
    exact ⟨by intro c hc; simp [cbcEncBlocks] at hc, by simpa [cbcEncBlocks], by simp [cbcEncBlocks]⟩
  | cons b bs ih =>
    intro iv hiv hbs
    have hb : b.length = 16 := hbs b (List.mem_cons_self b bs)
    have hxor : (xorBytes iv b).length = 16 := by
      rw [xorBytes_length, hiv, hb]; rfl
    have hc : (E (xorBytes iv b)).length = 16 := hE _ hxor
    have hrest := ih (E (xorBytes iv b)) hc
      (fun x hx => hbs x (List.mem_cons_of_mem _ hx))
    refine ⟨?_, ?_, ?_⟩
    · intro c hcmem
      simp only [cbcEncBlocks] at hcmem
      rcases List.mem_cons.mp hcmem with hcmem | hcmem
      · subst hcmem; exact hc
      · exact hrest.1 c hcmem
    · simpa [cbcEncBlocks] using hrest.2.1
    · simpa [cbcEncBlocks] using hrest.2.2

theorem flatten_length_of_sixteen (cs : List Bytes)
    (h : ∀ c ∈ cs, c.length = 16) : cs.flatten.length = 16 * cs.length := by
  induction cs with
  | nil => rfl
  | cons c cs ih =>
    have hc : c.length = 16 := h c (List.mem_cons_self c cs)
    have := ih (fun x hx => h x (List.mem_cons_of_mem _ hx))
    simp [List.flatten_cons, hc, this, Nat.mul_succ, Nat.mul_add]
    omega

theorem cbcDecBlocks_cbcEncBlocks (E D : Bytes → Bytes)
    (hE : ∀ b, b.length = 16 → (E b).length = 16)
    (hDE : ∀ b, b.length = 16 → D (E b) = b) (bs : List Bytes) :
    ∀ iv : Bytes, iv.length = 16 → (∀ b ∈ bs, b.length = 16) →
    cbcDecBlocks D iv (cbcEncBlocks E iv bs).1 = (bs, (cbcEncBlocks E iv bs).2) := by
  induction bs with
  | nil => intro iv _ _; rfl
  | cons b bs ih =>
    intro iv hiv hbs
    have hb : b.length = 16 := hbs b (List.mem_cons_self b bs)
    have hxor : (xorBytes iv b).length = 16 := by
      rw [xorBytes_length, hiv, hb]; rfl
    have hc : (E (xorBytes iv b)).length = 16 := hE _ hxor
    have hrest := ih (E (xorBytes iv b)) hc
      (fun x hx => hbs x (List.mem_cons_of_mem _ hx))
    simp only [cbcEncBlocks, cbcDecBlocks]
    rw [hDE _ hxor, xorBytes_cancel iv b (by rw [hiv, hb]), hrest]

/-! The chunked loops agree with a single CBC pass. -/

theorem take_length_dvd_sixteen (cs : Nat) (data : Bytes)
    (hcs : (16:Nat) ∣ cs) (hd : (16:Nat) ∣ data.length) :
    (16:Nat) ∣ (data.take cs).length := by
  simp only [List.length_take]
  rcases Nat.le_total cs data.length with h | h
  · rwa [Nat.min_eq_left h]
  · rwa [Nat.min_eq_right h]

theorem drop_length_dvd_sixteen (cs : Nat) (data : Bytes)
    (hcs : (16:Nat) ∣ cs) (hd : (16:Nat) ∣ data.length) :
    (16:Nat) ∣ (data.drop cs).length := by
  simp only [List.length_drop]
  exact Nat.dvd_sub' hd hcs

theorem encryptLoopF_ok (E : Bytes → Bytes) (cs : Nat)
    (hcs : (16:Nat) ∣ cs) (hpos : 0 < cs) (fuel : Nat) :
    ∀ (iv data : Bytes), data.length ≤ fuel → (16:Nat) ∣ data.length →
    encryptLoopF E cs fuel iv data =
      .ok ((cbcEncBlocks E iv (toBlocks data)).1.flatten,
           (cbcEncBlocks E iv (toBlocks data)).2) := by
  induction fuel with
  | zero =>
    intro iv data hf _
    have hd : data = [] := List.eq_nil_of_length_eq_zero (Nat.le_zero.mp hf)
    subst hd
    simp [encryptLoopF, toBlocks_nil, cbcEncBlocks]
  | succ f ih =>
    intro iv data hf hdvd
    cases data with
    | nil => simp [encryptLoopF, toBlocks_nil, cbcEncBlocks]
    | cons d ds =>
      set data := d :: ds with hdata
      have hne : data ≠ [] := by simp [hdata]
      have hpos' : 0 < data.length := List.length_pos.mpr hne
      have htake : (16:Nat) ∣ (data.take cs).length :=
        take_length_dvd_sixteen cs data hcs hdvd
      have hdrop : (16:Nat) ∣ (data.drop cs).length :=
        drop_length_dvd_sixteen cs data hcs hdvd
      have hfd : (data.drop cs).length ≤ f := by
        simp only [List.length_drop]
        omega
      have hmod : (data.take cs).length % AES_BLOCK_SIZE = 0 := by
        simp only [AES_BLOCK_SIZE]; omega
      have hchunk : encrypt_chunk E (data.take cs) iv =
          .ok ((cbcEncBlocks E iv (toBlocks (data.take cs))).1.flatten,
               (cbcEncBlocks E iv (toBlocks (data.take cs))).2) := by
        unfold encrypt_chunk
        rw [if_neg (by simp only [ne_eq, Decidable.not_not]; exact hmod)]
      have hstep : encryptLoopF E cs (f + 1) iv data =
          match encrypt_chunk E (data.take cs) iv with
          | .error e => .error e
          | .ok (c, iv2) =>
            match encryptLoopF E cs f iv2 (data.drop cs) with
            | .error e => .error e
            | .ok (rest, ivf) => .ok (c ++ rest, ivf) := rfl
      rw [hstep]
      simp only [hchunk]
      simp only [ih (cbcEncBlocks E iv (toBlocks (data.take cs))).2 (data.drop cs) hfd hdrop]
      have hsplit : toBlocks data = toBlocks (data.take cs) ++ toBlocks (data.drop cs) := by
        conv_lhs => rw [← List.take_append_drop cs data]
        exact toBlocks_append _ _ htake
      rw [hsplit, cbcEncBlocks_append, List.flatten_append]

theorem decryptLoopF_ok (D : Bytes → Bytes) (cs : Nat)
    (hcs : (16:Nat) ∣ cs) (hpos : 0 < cs) (fuel : Nat) :
    ∀ (iv data : Bytes), data.length ≤ fuel → (16:Nat) ∣ data.length →
    decryptLoopF D cs fuel iv data =
      .ok ((cbcDecBlocks D iv (toBlocks data)).1.flatten,
           (cbcDecBlocks D iv (toBlocks data)).2) := by
  induction fuel with
  | zero =>
    intro iv data hf _
    have hd : data = [] := List.eq_nil_of_length_eq_zero (Nat.le_zero.mp hf)
    subst hd
    simp [decryptLoopF, toBlocks_nil, cbcDecBlocks]
  | succ f ih =>
    intro iv data hf hdvd
    cases data with
    | nil => simp [decryptLoopF, toBlocks_nil, cbcDecBlocks]
    | cons d ds =>
      set data := d :: ds with hdata
      have hne : data ≠ [] := by simp [hdata]
      have hpos' : 0 < data.length := List.length_pos.mpr hne
      have htake : (16:Nat) ∣ (data.take cs).length :=
        take_length_dvd_sixteen cs data hcs hdvd
      have hdrop : (16:Nat) ∣ (data.drop cs).length :=
        drop_length_dvd_sixteen cs data hcs hdvd
      have hfd : (data.drop cs).length ≤ f := by
        simp only [List.length_drop]
        omega
      have hmod : (data.take cs).length % AES_BLOCK_SIZE = 0 := by
        simp only [AES_BLOCK_SIZE]; omega
      have hchunk : decrypt_chunk D (data.take cs) iv =
          .ok ((cbcDecBlocks D iv (toBlocks (data.take cs))).1.flatten,
               (cbcDecBlocks D iv (toBlocks (data.take cs))).2) := by
        unfold decrypt_chunk
        rw [if_neg (by simp only [ne_eq, Decidable.not_not]; exact hmod)]
      have hstep : decryptLoopF D cs (f + 1) iv data =
          match decrypt_chunk D (data.take cs) iv with
          | .error e => .error e
          | .ok (p, iv2) =>
            match decryptLoopF D cs f iv2 (data.drop cs) with
            | .error e => .error e
            | .ok (rest, ivf) => .ok (p ++ rest, ivf) := rfl
      rw [hstep]
      simp only [hchunk]
      simp only [ih (cbcDecBlocks D iv (toBlocks (data.take cs))).2 (data.drop cs) hfd hdrop]
      have hsplit : toBlocks data = toBlocks (data.take cs) ++ toBlocks (data.drop cs) := by
        conv_lhs => rw [← List.take_append_drop cs data]
        exact toBlocks_append _ _ htake
      rw [hsplit, cbcDecBlocks_append, List.flatten_append]

/-! Arithmetic facts about the length field and padding. -/

theorem u32le_length (n : Nat) : (u32le n).length = 4 := rfl

theorem u32dec_u32le (n : Nat) : u32dec (u32le n) = n % 4294967296 := by
  simp only [u32le, u32dec, List.getD_cons_zero, List.getD_cons_succ]
  omega

theorem resize_length (l : Bytes) (n : Nat) : (resize l n).length = n := by
  simp only [resize, List.length_append, List.length_take, List.length_replicate]
  omega

theorem resize_of_le (l : Bytes) (n : Nat) (h : l.length ≤ n) :
    resize l n = l ++ List.replicate (n - l.length) 0 := by
  simp only [resize, List.take_of_length_le h]

theorem toBlocks_flatten_of_sixteen (bs : List Bytes)
    (h : ∀ b ∈ bs, b.length = 16) : toBlocks bs.flatten = bs := by
  have := toBlocks_flatten_append bs [] h
  simpa [toBlocks_nil] using this

theorem paddedPlain_length (data : Bytes) :
    (paddedPlain data).length = (4 + data.length + 15) / 16 * 16 := by
  simp only [paddedPlain, resize_length, List.length_append, u32le_length, AES_BLOCK_SIZE]
  omega

theorem paddedPlain_dvd (data : Bytes) : (16:Nat) ∣ (paddedPlain data).length := by
  rw [paddedPlain_length]
  exact Nat.dvd_mul_left 16 _

theorem paddedPlain_ge (data : Bytes) : 4 + data.length ≤ (paddedPlain data).length := by
  rw [paddedPlain_length]
  omega

theorem paddedPlain_eq (data : Bytes) :
    paddedPlain data =
      (u32le data.length ++ data) ++
        List.replicate ((4 + data.length + 15) / 16 * 16 - (4 + data.length)) 0 := by
  have hlen : (u32le data.length ++ data).length = 4 + data.length := by
    simp [u32le_length]
  have harith : ((u32le data.length ++ data).length + AES_BLOCK_SIZE - 1) /
      AES_BLOCK_SIZE * AES_BLOCK_SIZE = (4 + data.length + 15) / 16 * 16 := by
    simp only [hlen, AES_BLOCK_SIZE]
    omega
  have hge : (u32le data.length ++ data).length ≤ (4 + data.length + 15) / 16 * 16 := by
    rw [hlen]
    omega
  rw [paddedPlain, harith, resize_of_le _ _ hge, hlen]

/-- `encrypt_data` under a block-aligned window size: it always succeeds,
installs `fresh` exactly when no key was present, and its output is the
IV followed by one CBC pass over the padded, length-prefixed plaintext. -/
theorem encrypt_data_ok (E : Bytes → Bytes → Bytes) (st : Option Bytes)
    (fresh iv : Bytes) (w : Nat) (data : Bytes)
    (hw : (16:Nat) ∣ max w AES_BLOCK_SIZE) :
    encrypt_data E st fresh iv w data =
      (.ok (iv ++ cbcEncryptBytes (E (st.getD fresh)) iv (paddedPlain data)),
       some (st.getD fresh)) := by
  have hposw : 0 < max w AES_BLOCK_SIZE := by
    have : AES_BLOCK_SIZE ≤ max w AES_BLOCK_SIZE := Nat.le_max_right w AES_BLOCK_SIZE
    simp only [AES_BLOCK_SIZE] at this ⊢
    omega
  have hdvd : (16:Nat) ∣ (paddedPlain data).length := paddedPlain_dvd data
  have hloop := encryptLoopF_ok (E (st.getD fresh)) (max w AES_BLOCK_SIZE) hw hposw
    (paddedPlain data).length iv (paddedPlain data) (Nat.le_refl _) hdvd
  simp only [encrypt_data]
  rw [hloop]
  rfl

theorem window_pos (w : Nat) : 0 < max w AES_BLOCK_SIZE := by
  have h := Nat.le_max_right w AES_BLOCK_SIZE
  simp only [AES_BLOCK_SIZE] at h ⊢
  omega

/-- CBC ciphertext of the padded, length-prefixed plaintext decrypts back
to the original data truncated at the (u32-wrapped) length field. -/
theorem decrypt_data_of_encrypted (E D : Bytes → Bytes → Bytes) (k iv : Bytes)
    (w : Nat) (P : Bytes)
    (hiv : iv.length = 16)
    (hw : (16:Nat) ∣ max w AES_BLOCK_SIZE)
    (hE : ∀ b, b.length = 16 → (E k b).length = 16)
    (hDE : ∀ b, b.length = 16 → D k (E k b) = b) :
    decrypt_data D (some k) w (iv ++ cbcEncryptBytes (E k) iv (paddedPlain P)) =
      .ok (P.take (P.length % 4294967296)) := by
  have hplen16 : (16:Nat) ∣ (paddedPlain P).length := paddedPlain_dvd P
  have hblocks16 : ∀ b ∈ toBlocks (paddedPlain P), b.length = 16 :=
    toBlocks_all_sixteen _ hplen16
  have hshape := cbcEncBlocks_shape (E k) hE (toBlocks (paddedPlain P)) iv hiv hblocks16
  have hC16 : ∀ c ∈ (cbcEncBlocks (E k) iv (toBlocks (paddedPlain P))).1, c.length = 16 :=
    hshape.1
  have hpadct : (paddedPlain P).length = 16 * (toBlocks (paddedPlain P)).length := by
    have h := flatten_length_of_sixteen (toBlocks (paddedPlain P)) hblocks16
    rwa [flatten_toBlocks] at h
  have hClen : (cbcEncryptBytes (E k) iv (paddedPlain P)).length = (paddedPlain P).length := by
    rw [cbcEncryptBytes, flatten_length_of_sixteen _ hC16, hshape.2.2]
    omega
  have hge16 : 16 ≤ (paddedPlain P).length := by
    rw [paddedPlain_length]
    omega
  have hgeL : 4 + P.length ≤ (paddedPlain P).length := paddedPlain_ge P
  simp only [decrypt_data]
  rw [if_neg (by
    simp only [List.length_append, hiv, hClen, AES_BLOCK_SIZE]
    omega)]
  rw [List.take_left' (show iv.length = AES_BLOCK_SIZE from hiv),
    List.drop_left' (show iv.length = AES_BLOCK_SIZE from hiv)]
  rw [if_neg (by
    simp only [hClen, AES_BLOCK_SIZE, ne_eq, Decidable.not_not]
    omega)]
  have hloop := decryptLoopF_ok (D k) (max w AES_BLOCK_SIZE) hw (window_pos w)
    (cbcEncryptBytes (E k) iv (paddedPlain P)).length iv
    (cbcEncryptBytes (E k) iv (paddedPlain P)) (Nat.le_refl _)
    (by rw [hClen]; exact hplen16)
  rw [hloop]
  have htb : toBlocks (cbcEncryptBytes (E k) iv (paddedPlain P)) =
      (cbcEncBlocks (E k) iv (toBlocks (paddedPlain P))).1 :=
    toBlocks_flatten_of_sixteen _ hC16
  rw [htb, cbcDecBlocks_cbcEncBlocks (E k) (D k) hE hDE (toBlocks (paddedPlain P)) iv hiv hblocks16]
  rw [flatten_toBlocks]
  simp only []
  rw [if_neg (by omega)]
  have htake4 : (paddedPlain P).take 4 = u32le P.length := by
    rw [paddedPlain_eq]
    rw [List.take_append_of_le_length (by simp [u32le_length])]
    rw [List.take_append_of_le_length (by simp [u32le_length])]
    exact List.take_of_length_le (by simp [u32le_length])
  rw [htake4, u32dec_u32le]
  have hmodle : P.length % 4294967296 ≤ P.length := Nat.mod_le _ _
  rw [if_neg (by omega)]
  have hdrop4 : (paddedPlain P).drop 4 =
      P ++ List.replicate ((4 + P.length + 15) / 16 * 16 - (4 + P.length)) 0 := by
    rw [paddedPlain_eq, List.append_assoc]
    exact List.drop_left' (u32le_length P.length)
  rw [hdrop4, List.take_append_of_le_length hmodle]

/-- Full round trip: encrypting and then decrypting under the same key
returns the plaintext truncated at its length reduced modulo 2^32 (the
`usize → u32` cast in `encrypt_data`'s length field). -/
theorem encrypt_then_decrypt (E D : Bytes → Bytes → Bytes) (k fresh iv : Bytes)
    (w : Nat) (P : Bytes)
    (hiv : iv.length = 16)
    (hw : (16:Nat) ∣ max w AES_BLOCK_SIZE)
    (hE : ∀ b, b.length = 16 → (E k b).length = 16)
    (hDE : ∀ b, b.length = 16 → D k (E k b) = b) :
    ((encrypt_data E (some k) fresh iv w P).1.bind fun ct =>
        decrypt_data D (some k) w ct) =
      .ok (P.take (P.length % 4294967296)) := by
  rw [encrypt_data_ok E (some k) fresh iv w P hw]
  exact decrypt_data_of_encrypted E D k iv w P hiv hw hE hDE

/-- C1 (amended): for every plaintext `P` of length below 2^32 and any
32-byte key active in the key manager, `decrypt_data` applied to the
output of `encrypt_data P` under the same key returns exactly `P`, with
the per-chunk AES primitive modelled as a correct CBC cipher (`E k` a
length-preserving block map inverted by `D k`), the generated IV one
block long, and the transport window block aligned. -/
theorem C1_roundtrip_amended (E D : Bytes → Bytes → Bytes) (k fresh iv : Bytes)
    (w : Nat) (P : Bytes)
    (_hk : k.length = AES_KEY_SIZE)
    (hiv : iv.length = 16)
    (hw : (16:Nat) ∣ max w AES_BLOCK_SIZE)
    (hE : ∀ b, b.length = 16 → (E k b).length = 16)
    (hDE : ∀ b, b.length = 16 → D k (E k b) = b)
    (hP : P.length < 4294967296) :
    ((encrypt_data E (some k) fresh iv w P).1.bind fun ct =>
        decrypt_data D (some k) w ct) = .ok P := by
  rw [encrypt_then_decrypt E D k fresh iv w P hiv hw hE hDE,
    Nat.mod_eq_of_lt hP, List.take_length]

/-- Witness for C1 (amended) at the identity block cipher, the all-zero
key and IV, window constant 0 (so the effective window is one block) and
plaintext `[1, 2, 3]`. -/
theorem C1_roundtrip_amended_witness :
    ((encrypt_data (fun _ b => b) (some (List.replicate 32 0)) (List.replicate 32 0)
        (List.replicate 16 0) 0 [1, 2, 3]).1.bind fun ct =>
      decrypt_data (fun _ b => b) (some (List.replicate 32 0)) 0 ct) = .ok [1, 2, 3] :=
  C1_roundtrip_amended (fun _ b => b) (fun _ b => b) (List.replicate 32 0)
    (List.replicate 32 0) (List.replicate 16 0) 0 [1, 2, 3]
    (by decide) (by decide) (by decide) (fun _ hb => hb) (fun _ _ => rfl) (by decide)

/-- C1 is false as stated for plaintexts whose length reaches 2^32: the
`usize → u32` cast wraps, the length field of a 2^32-byte plaintext
decodes as 0, and the round trip returns the empty buffer instead of the
plaintext. -/
theorem C1_roundtrip_counterexample :
    ((encrypt_data (fun _ b => b) (some (List.replicate 32 0)) (List.replicate 32 0)
        (List.replicate 16 0) 0 (List.replicate 4294967296 37)).1.bind fun ct =>
      decrypt_data (fun _ b => b) (some (List.replicate 32 0)) 0 ct) = .ok [] ∧
    (List.replicate 4294967296 37 : Bytes) ≠ [] := by
  constructor
  · have h := encrypt_then_decrypt (fun _ b => b) (fun _ b => b) (List.replicate 32 0)
      (List.replicate 32 0) (List.replicate 16 0) 0 (List.replicate 4294967296 37)
      (by decide) (by decide) (fun _ hb => hb) (fun _ _ => rfl)
    rw [List.length_replicate, Nat.mod_self, List.take_zero] at h
    exact h
  · intro h
    have hlen := congrArg List.length h
    rw [List.length_replicate, List.length_nil] at hlen
    omega

theorem cbcEncryptBytes_length (E1 : Bytes → Bytes) (iv data : Bytes)
    (hE : ∀ b, b.length = 16 → (E1 b).length = 16)
    (hiv : iv.length = 16) (h16 : (16:Nat) ∣ data.length) :
    (cbcEncryptBytes E1 iv data).length = data.length := by
  have hblocks16 : ∀ b ∈ toBlocks data, b.length = 16 := toBlocks_all_sixteen _ h16
  have hshape := cbcEncBlocks_shape E1 hE (toBlocks data) iv hiv hblocks16
  have hdata : data.length = 16 * (toBlocks data).length := by
    have h := flatten_length_of_sixteen (toBlocks data) hblocks16
    rwa [flatten_toBlocks] at h
  rw [cbcEncryptBytes, flatten_length_of_sixteen _ hshape.1, hshape.2.2]
  omega

theorem encryptLoopF_no_item_not_found (E1 : Bytes → Bytes) (cs : Nat) (fuel : Nat) :
    ∀ iv data : Bytes, encryptLoopF E1 cs fuel iv data ≠ .error .ItemNotFound := by
  induction fuel with
  | zero =>
    intro iv data
    cases data <;> simp [encryptLoopF]
  | succ f ih =>
    intro iv data
    cases data with
    | nil => simp [encryptLoopF]
    | cons d ds =>
      have hstep : encryptLoopF E1 cs (f + 1) iv (d :: ds) =
          match encrypt_chunk E1 ((d :: ds).take cs) iv with
          | .error e => .error e
          | .ok (c, iv2) =>
            match encryptLoopF E1 cs f iv2 ((d :: ds).drop cs) with
            | .error e => .error e
            | .ok (rest, ivf) => .ok (c ++ rest, ivf) := rfl
      rw [hstep]
      unfold encrypt_chunk
      by_cases hmod : ((d :: ds).take cs).length % AES_BLOCK_SIZE ≠ 0
      · rw [if_pos hmod]
        intro hcontra
        exact ErrorKind.noConfusion (Except.error.inj hcontra)
      · rw [if_neg hmod]
        cases hrec : encryptLoopF E1 cs f (cbcEncBlocks E1 iv (toBlocks ((d :: ds).take cs))).2
            ((d :: ds).drop cs) with
        | error e =>
          simp only [hrec]
          intro hcontra
          have he : e = .ItemNotFound := Except.error.inj hcontra
          exact ih _ _ (he ▸ hrec)
        | ok p =>
          simp only [hrec]
          cases p
          intro hcontra
          exact Except.noConfusion hcontra

/-- C5: with a key present, `decrypt_data` fails with `BadParameters` on
every input shorter than 32 bytes; on every input whose length minus 16
is not a multiple of 16; and, for a block-aligned transport window, on
every well-sized input whose decrypted bytes are shorter than the decoded
4-byte little-endian length prefix plus 4. In each case no plaintext is
returned. -/
theorem C5_decrypt_bad_parameters (D : Bytes → Bytes → Bytes) (k : Bytes)
    (w : Nat) (input : Bytes) (hw : (16:Nat) ∣ max w AES_BLOCK_SIZE) :
    (input.length < 32 →
      decrypt_data D (some k) w input = .error .BadParameters) ∧
    ((input.length - 16) % 16 ≠ 0 →
      decrypt_data D (some k) w input = .error .BadParameters) ∧
    (32 ≤ input.length → (input.length - 16) % 16 = 0 →
      (cbcDecryptBytes (D k) (input.take 16) (input.drop 16)).length <
        u32dec ((cbcDecryptBytes (D k) (input.take 16) (input.drop 16)).take 4) + 4 →
      decrypt_data D (some k) w input = .error .BadParameters) := by
  refine ⟨?_, ?_, ?_⟩
  · intro hlen
    simp only [decrypt_data]
    rw [if_pos (by simp only [AES_BLOCK_SIZE]; omega)]
  · intro hmod
    by_cases hlen : input.length < 32
    · simp only [decrypt_data]
      rw [if_pos (by simp only [AES_BLOCK_SIZE]; omega)]
    · simp only [decrypt_data]
      rw [if_neg (by simp only [AES_BLOCK_SIZE]; omega)]
      rw [if_pos (by simp only [List.length_drop, AES_BLOCK_SIZE]; omega)]
  · intro hlen hmod hshort
    simp only [decrypt_data]
    rw [if_neg (by simp only [AES_BLOCK_SIZE]; omega)]
    rw [if_neg (by simp only [List.length_drop, AES_BLOCK_SIZE, ne_eq, Decidable.not_not]; omega)]
    have hdvd : (16:Nat) ∣ (input.drop AES_BLOCK_SIZE).length := by
      simp only [List.length_drop, AES_BLOCK_SIZE]
      omega
    have hloop := decryptLoopF_ok (D k) (max w AES_BLOCK_SIZE) hw (window_pos w)
      (input.drop AES_BLOCK_SIZE).length (input.take AES_BLOCK_SIZE)
      (input.drop AES_BLOCK_SIZE) (Nat.le_refl _) hdvd
    rw [hloop]
    simp only []
    by_cases hlt4 : (cbcDecryptBytes (D k) (input.take 16) (input.drop 16)).length < 4
    · rw [if_pos (by
        simp only [cbcDecryptBytes, AES_BLOCK_SIZE] at hlt4 ⊢
        exact hlt4)]
    · rw [if_neg (by
        simp only [cbcDecryptBytes, AES_BLOCK_SIZE] at hlt4 ⊢
        exact hlt4)]
      rw [if_pos (by
        simp only [cbcDecryptBytes, AES_BLOCK_SIZE] at hshort ⊢
        exact hshort)]

/-- Witness for C5 at three concrete inputs with the identity cipher:
a 1-byte input (too short), a 40-byte input (ciphertext not block
aligned), and a 32-byte input whose decrypted length field (65535) plus 4
exceeds the 16 decrypted bytes. -/
theorem C5_decrypt_bad_parameters_witness :
    decrypt_data (fun _ b => b) (some [9]) 0 [1] = .error .BadParameters ∧
    decrypt_data (fun _ b => b) (some [9]) 0 (List.replicate 40 0) = .error .BadParameters ∧
    decrypt_data (fun _ b => b) (some [9]) 0
      (List.replicate 16 0 ++ (255 :: 255 :: List.replicate 14 0)) = .error .BadParameters := by
  refine ⟨?_, ?_, ?_⟩
  · exact (C5_decrypt_bad_parameters (fun _ b => b) [9] 0 [1] (by decide)).1 (by decide)
  · exact (C5_decrypt_bad_parameters (fun _ b => b) [9] 0 (List.replicate 40 0)
      (by decide)).2.1 (by decide)
  · exact (C5_decrypt_bad_parameters (fun _ b => b) [9] 0
      (List.replicate 16 0 ++ (255 :: 255 :: List.replicate 14 0)) (by decide)).2.2
      (by decide) (by decide) (by decide)

/-- C6: for every plaintext of length `L` (and block-aligned transport
window), `encrypt_data` outputs the 16-byte IV followed by the CBC
ciphertext of the 4-byte little-endian encoding of `L`, the plaintext,
and zero padding to the next 16-byte boundary; the output length is
`16 + ((L + 4 + 15) / 16) * 16 = 16 + ceil((L + 4) / 16) * 16`. -/
theorem C6_encrypt_layout (E : Bytes → Bytes → Bytes) (st : Option Bytes)
    (fresh iv : Bytes) (w : Nat) (data : Bytes)
    (hiv : iv.length = 16)
    (hw : (16:Nat) ∣ max w AES_BLOCK_SIZE)
    (hE : ∀ b, b.length = 16 → (E (st.getD fresh) b).length = 16) :
    (encrypt_data E st fresh iv w data).1 =
      .ok (iv ++ cbcEncryptBytes (E (st.getD fresh)) iv
        (u32le data.length ++ data ++
          List.replicate ((data.length + 4 + 15) / 16 * 16 - (data.length + 4)) 0)) ∧
    ∀ out, (encrypt_data E st fresh iv w data).1 = .ok out →
      out.length = 16 + (data.length + 4 + 15) / 16 * 16 := by
  have harith : (4 + data.length + 15) / 16 * 16 = (data.length + 4 + 15) / 16 * 16 := by
    have h45 : 4 + data.length + 15 = data.length + 4 + 15 := by omega
    rw [h45]
  have hpad : paddedPlain data =
      u32le data.length ++ data ++
        List.replicate ((data.length + 4 + 15) / 16 * 16 - (data.length + 4)) 0 := by
    rw [paddedPlain_eq data, harith]
    have h4 : 4 + data.length = data.length + 4 := by omega
    rw [h4]
  have hok := encrypt_data_ok E st fresh iv w data hw
  constructor
  · rw [hok, hpad]
  · intro out hout
    rw [hok] at hout
    have hout' : out = iv ++ cbcEncryptBytes (E (st.getD fresh)) iv (paddedPlain data) :=
      (Except.ok.inj hout).symm
    rw [hout', List.length_append, hiv,
      cbcEncryptBytes_length _ _ _ hE hiv (paddedPlain_dvd data),
      paddedPlain_length data, harith]

/-- Witness for C6 at the identity cipher, zero IV and key, window 0 and
a 3-byte plaintext: the layout equation and the length 16 + 16 both
hold. -/
theorem C6_encrypt_layout_witness :
    (encrypt_data (fun _ b => b) (some [5]) [5] (List.replicate 16 0) 0 [1, 2, 3]).1 =
      .ok (List.replicate 16 0 ++ cbcEncryptBytes (fun b => b) (List.replicate 16 0)
        (u32le 3 ++ [1, 2, 3] ++ List.replicate ((3 + 4 + 15) / 16 * 16 - (3 + 4)) 0)) ∧
    (List.replicate 16 0 ++ cbcEncryptBytes (fun b => b) (List.replicate 16 0)
        (u32le 3 ++ [1, 2, 3] ++ List.replicate ((3 + 4 + 15) / 16 * 16 - (3 + 4)) 0)).length =
      16 + (3 + 4 + 15) / 16 * 16 := by
  constructor
  · exact (C6_encrypt_layout (fun _ b => b) (some [5]) [5] (List.replicate 16 0) 0 [1, 2, 3]
      (by decide) (by decide) (fun _ hb => hb)).1
  · have h := (C6_encrypt_layout (fun _ b => b) (some [5]) [5] (List.replicate 16 0) 0 [1, 2, 3]
      (by decide) (by decide) (fun _ hb => hb)).2
        (List.replicate 16 0 ++ cbcEncryptBytes (fun b => b) (List.replicate 16 0)
          (u32le 3 ++ [1, 2, 3] ++ List.replicate ((3 + 4 + 15) / 16 * 16 - (3 + 4)) 0))
        (C6_encrypt_layout (fun _ b => b) (some [5]) [5] (List.replicate 16 0) 0 [1, 2, 3]
          (by decide) (by decide) (fun _ hb => hb)).1
    simpa using h

/-- C7: encrypting a padded buffer window by window with the IV threaded
through `encrypt_chunk` (the IV fed to window n+1 being the updated IV —
the last ciphertext block — returned by window n) yields ciphertext
byte-identical to one CBC pass over the whole buffer with the same
initial IV, for every choice of window boundaries that are multiples of
the 16-byte block size. -/
theorem C7_chaining_equivalence (E1 : Bytes → Bytes) (ws : List Bytes) :
    ∀ iv : Bytes, (∀ c ∈ ws, (16:Nat) ∣ c.length) →
    encryptChunks E1 iv ws =
      .ok (cbcEncryptBytes E1 iv ws.flatten,
           (cbcEncBlocks E1 iv (toBlocks ws.flatten)).2) := by
  induction ws with
  | nil =>
    intro iv _
    simp [encryptChunks, cbcEncryptBytes, toBlocks_nil, cbcEncBlocks]
  | cons c rest ih =>
    intro iv h
    have hc : (16:Nat) ∣ c.length := h c (List.mem_cons_self c rest)
    have hrest : ∀ x ∈ rest, (16:Nat) ∣ x.length :=
      fun x hx => h x (List.mem_cons_of_mem _ hx)
    have hchunk : encrypt_chunk E1 c iv =
        .ok ((cbcEncBlocks E1 iv (toBlocks c)).1.flatten,
             (cbcEncBlocks E1 iv (toBlocks c)).2) := by
      unfold encrypt_chunk
      rw [if_neg (by simp only [AES_BLOCK_SIZE, ne_eq, Decidable.not_not]; omega)]
    have hstep : encryptChunks E1 iv (c :: rest) =
        match encrypt_chunk E1 c iv with
        | .error e => .error e
        | .ok (ct, iv2) =>
          match encryptChunks E1 iv2 rest with
          | .error e => .error e
          | .ok (cts, ivf) => .ok (ct ++ cts, ivf) := rfl
    rw [hstep]
    simp only [hchunk]
    simp only [ih (cbcEncBlocks E1 iv (toBlocks c)).2 hrest]
    simp only [cbcEncryptBytes, List.flatten_cons]
    rw [toBlocks_append c rest.flatten hc, cbcEncBlocks_append, List.flatten_append]

/-- Witness for C7 at the identity cipher: two windows of one and two
blocks of zeros, chained, equal the single pass over the 48-byte
buffer. -/
theorem C7_chaining_equivalence_witness :
    encryptChunks (fun b => b) (List.replicate 16 1)
        [List.replicate 16 0, List.replicate 32 0] =
      .ok (cbcEncryptBytes (fun b => b) (List.replicate 16 1)
            ([List.replicate 16 0, List.replicate 32 0] : List Bytes).flatten,
           (cbcEncBlocks (fun b => b) (List.replicate 16 1)
            (toBlocks ([List.replicate 16 0, List.replicate 32 0] : List Bytes).flatten)).2) :=
  C7_chaining_equivalence (fun b => b) [List.replicate 16 0, List.replicate 32 0]
    (List.replicate 16 1) (by decide)

/-- C8: the key preconditions are asymmetric. `decrypt_data` with no key
fails with `ItemNotFound` on every input, before any decryption;
`encrypt_data` first installs a fresh key when none exists (the key slot
after the call always holds `st.getD fresh`) and never fails for lack of
a key (its result is never `ItemNotFound`). -/
theorem C8_key_preconditions (E D : Bytes → Bytes → Bytes) (st : Option Bytes)
    (fresh iv : Bytes) (w : Nat) (data input : Bytes) :
    decrypt_data D none w input = .error .ItemNotFound ∧
    (encrypt_data E st fresh iv w data).2 = some (st.getD fresh) ∧
    (encrypt_data E st fresh iv w data).1 ≠ .error .ItemNotFound := by
  refine ⟨rfl, ?_, ?_⟩
  · cases h : encryptLoopF (E (st.getD fresh)) (max w AES_BLOCK_SIZE)
        (paddedPlain data).length iv (paddedPlain data) with
    | error e => simp [encrypt_data, h]
    | ok p =>
      cases p
      simp [encrypt_data, h]
  · cases h : encryptLoopF (E (st.getD fresh)) (max w AES_BLOCK_SIZE)
        (paddedPlain data).length iv (paddedPlain data) with
    | error e =>
      simp only [encrypt_data, h]
      intro hcontra
      have he : e = .ItemNotFound := Except.error.inj hcontra
      exact encryptLoopF_no_item_not_found (E (st.getD fresh)) (max w AES_BLOCK_SIZE)
        (paddedPlain data).length iv (paddedPlain data) (he ▸ h)
    | ok p =>
      cases p
      simp [encrypt_data, h]

/-- `ensure_key_manager` only ever touches the `keyMgr` field. -/
theorem ensure_key_manager_fields {M : Type} (st st1 : TaState M)
    (h : ensure_key_manager st = .ok st1) :
    st1.model = st.model ∧ st1.keyStore = st.keyStore ∧
      st1.storedModel = st.storedModel ∧ st1.modelBuf = st.modelBuf := by
  unfold ensure_key_manager at h
  by_cases h1 : st.keyStore.isNone = true
  · rw [if_pos h1] at h
    exact Except.noConfusion h
  · rw [if_neg h1] at h
    by_cases h2 : st.keyMgr.isSome = true
    · rw [if_pos h2] at h
      have h3 : st = st1 := Except.ok.inj h
      subst h3
      exact ⟨rfl, rfl, rfl, rfl⟩
    · rw [if_neg h2] at h
      unfold load_ta_aes_key at h
      cases hks : st.keyStore with
      | none =>
        rw [hks] at h
        exact Except.noConfusion h
      | some k =>
        rw [hks] at h
        simp only [] at h
        by_cases hk : k.length ≠ 32
        · rw [if_pos hk] at h
          exact Except.noConfusion h
        · rw [if_neg hk] at h
          simp only [] at h
          have h3 := Except.ok.inj h
          subst h3
          exact ⟨rfl, rfl, rfl, rfl⟩

/-- C9: `push_encrypted_chunk` has no precondition: on any state it
succeeds and appends the input verbatim to the accumulation buffer; an
empty input leaves the buffer unchanged (the append is with `[]`). -/
theorem C9_push_no_precondition {M : Type} (st : TaState M) (enc : Bytes) :
    invoke_push_encrypted_chunk st enc =
      (.ok (), { st with modelBuf := st.modelBuf ++ enc }) := by
  unfold invoke_push_encrypted_chunk
  by_cases h : enc = []
  · subst h
    rw [if_pos rfl]
    simp
  · rw [if_neg h]

/-- C10: `store_key` rejects every key buffer whose length is not 32,
leaving the state (secure storage and key manager included) unchanged;
for every 32-byte buffer it overwrites the persisted key object and
installs the key as the active key manager. -/
theorem C10_store_key {M : Type} (st : TaState M) (keyBuf : Bytes) :
    (keyBuf.length ≠ 32 →
      invoke_store_key st keyBuf = (.error .BadParameters, st)) ∧
    (keyBuf.length = 32 →
      invoke_store_key st keyBuf =
        (.ok (), { st with keyStore := some keyBuf, keyMgr := some keyBuf })) := by
  constructor
  · intro h
    unfold invoke_store_key
    rw [if_pos h]
  · intro h
    unfold invoke_store_key
    rw [if_neg (by simp [h])]

/-- Witness for C10 on a 1-byte buffer (rejected, state untouched) and a
32-byte buffer (persisted and installed). -/
theorem C10_store_key_witness :
    invoke_store_key
      ({ keyStore := none, storedModel := none, keyMgr := none,
         model := none, modelBuf := [] } : TaState Unit) [7] =
      (.error .BadParameters,
       { keyStore := none, storedModel := none, keyMgr := none,
         model := none, modelBuf := [] }) ∧
    invoke_store_key
      ({ keyStore := none, storedModel := none, keyMgr := none,
         model := none, modelBuf := [] } : TaState Unit) (List.replicate 32 1) =
      (.ok (),
       { keyStore := some (List.replicate 32 1), storedModel := none,
         keyMgr := some (List.replicate 32 1), model := none, modelBuf := [] }) :=
  ⟨(C10_store_key _ [7]).1 (by decide),
   (C10_store_key _ (List.replicate 32 1)).2 (by decide)⟩

/-- C2 is not implemented by the code: on the cited failing input — a key
provisioned and active, and an accumulated 32-byte blob that decrypts
(under the modelled correct cipher) to the empty byte string, which
deserializes successfully — `finalize_model_load` succeeds and installs
the model, but the persisted-model object in Secure Storage stays `none`:
`store_model_bytes` (secure_storage.rs:67-89) is never called by
`invoke_finalize_model_load`. -/
theorem C2_finalize_does_not_persist :
    (invoke_finalize_model_load (fun _ b => b) 16 (fun _ => some 0)
      ({ keyStore := some (List.replicate 32 0), storedModel := none,
         keyMgr := some (List.replicate 32 0), model := none,
         modelBuf := List.replicate 32 0 } : TaState Nat)).1 = .ok () ∧
    (invoke_finalize_model_load (fun _ b => b) 16 (fun _ => some 0)
      ({ keyStore := some (List.replicate 32 0), storedModel := none,
         keyMgr := some (List.replicate 32 0), model := none,
         modelBuf := List.replicate 32 0 } : TaState Nat)).2.model = some 0 ∧
    (invoke_finalize_model_load (fun _ b => b) 16 (fun _ => some 0)
      ({ keyStore := some (List.replicate 32 0), storedModel := none,
         keyMgr := some (List.replicate 32 0), model := none,
         modelBuf := List.replicate 32 0 } : TaState Nat)).2.storedModel = none :=
  ⟨rfl, rfl, rfl⟩

/-- C3 is not implemented by the code: with no resident model but Secure
Storage holding persisted model bytes, a non-empty inference request
fails with `CorruptObject` and leaves the state unchanged — no lazy
recovery happens (`load_model_bytes`, secure_storage.rs:91-108, is never
called by `invoke_inference`). -/
theorem C3_infer_ignores_persisted_model :
    invoke_inference (fun (_ : Unit) (_ : Unit) => 0)
      ({ keyStore := some (List.replicate 32 0), storedModel := some [7],
         keyMgr := none, model := none, modelBuf := [] } : TaState Unit)
      [()] =
      (.error .CorruptObject,
       { keyStore := some (List.replicate 32 0), storedModel := some [7],
         keyMgr := none, model := none, modelBuf := [] }) := rfl

/-- C4 (amended): every enclave command that fails leaves the resident
model, the two Secure Storage objects, and — for every command other
than `finalize_model_load` (6) — the accumulation buffer and key-manager
slot unchanged; a failing `finalize_model_load` leaves the resident model
untouched but may leave the accumulation buffer emptied (the buffer is
taken before decryption) and a lazily loaded key manager installed. -/
theorem C4_atomicity_amended {M Img : Type} (D : Bytes → Bytes → Bytes) (w : Nat)
    (importM : Bytes → Option M) (fwd : M → Img → Nat) (cmdId : Nat)
    (imgs : List Img) (buf : Bytes) (st st' : TaState M) (e : ErrorKind)
    (h : invoke_command D w importM fwd cmdId imgs buf st = (.error e, st')) :
    st'.model = st.model ∧ st'.keyStore = st.keyStore ∧
    st'.storedModel = st.storedModel ∧
    (st'.modelBuf = st.modelBuf ∨ (cmdId = 6 ∧ st'.modelBuf = [])) ∧
    (st'.keyMgr = st.keyMgr ∨ cmdId = 6) := by
  unfold invoke_command at h
  by_cases h0 : cmdId = 0
  · rw [if_pos h0] at h
    unfold invoke_inference at h
    by_cases hi : imgs.isEmpty = true
    · rw [if_pos hi] at h
      injection h with h1 h2
      subst h2
      exact ⟨rfl, rfl, rfl, Or.inl rfl, Or.inl rfl⟩
    · rw [if_neg hi] at h
      cases hm : st.model with
      | none =>
        rw [hm] at h
        simp only [] at h
        injection h with h1 h2
        subst h2
        exact ⟨hm, rfl, rfl, Or.inl rfl, Or.inl rfl⟩
      | some m =>
        rw [hm] at h
        simp only [] at h
        injection h with h1 h2
        exact Except.noConfusion h1
  · rw [if_neg h0] at h
    by_cases h3 : cmdId = 3
    · rw [if_pos h3] at h
      unfold invoke_store_key at h
      by_cases hk : buf.length ≠ 32
      · rw [if_pos hk] at h
        simp only [] at h
        injection h with h1 h2
        subst h2
        exact ⟨rfl, rfl, rfl, Or.inl rfl, Or.inl rfl⟩
      · rw [if_neg hk] at h
        simp only [] at h
        injection h with h1 h2
        exact Except.noConfusion h1
    · rw [if_neg h3] at h
      by_cases h4 : cmdId = 4
      · rw [if_pos h4] at h
        unfold invoke_begin_model_load at h
        cases hek : ensure_key_manager st with
        | error e0 =>
          rw [hek] at h
          simp only [] at h
          injection h with h1 h2
          subst h2
          exact ⟨rfl, rfl, rfl, Or.inl rfl, Or.inl rfl⟩
        | ok st1 =>
          rw [hek] at h
          simp only [] at h
          injection h with h1 h2
          exact Except.noConfusion h1
      · rw [if_neg h4] at h
        by_cases h5 : cmdId = 5
        · rw [if_pos h5] at h
          unfold invoke_push_encrypted_chunk at h
          by_cases he : buf = []
          · rw [if_pos he] at h
            simp only [] at h
            injection h with h1 h2
            exact Except.noConfusion h1
          · rw [if_neg he] at h
            simp only [] at h
            injection h with h1 h2
            exact Except.noConfusion h1
        · rw [if_neg h5] at h
          by_cases h6 : cmdId = 6
          · rw [if_pos h6] at h
            unfold invoke_finalize_model_load at h
            cases hek : ensure_key_manager st with
            | error e0 =>
              rw [hek] at h
              simp only [] at h
              injection h with h1 h2
              subst h2
              exact ⟨rfl, rfl, rfl, Or.inl rfl, Or.inl rfl⟩
            | ok st1 =>
              have hf := ensure_key_manager_fields st st1 hek
              obtain ⟨ks1, sm1, km1, m1, mb1⟩ := st1
              simp only [] at hf
              rw [hek] at h
              simp only [] at h
              cases km1 with
              | none =>
                simp only [] at h
                injection h with h1 h2
                subst h2
                exact ⟨hf.1, hf.2.1, hf.2.2.1, Or.inr ⟨h6, rfl⟩, Or.inr h6⟩
              | some k =>
                simp only [] at h
                cases hdec : decrypt_data D (some k) w mb1 with
                | error e1 =>
                  rw [hdec] at h
                  simp only [] at h
                  injection h with h1 h2
                  subst h2
                  exact ⟨hf.1, hf.2.1, hf.2.2.1, Or.inr ⟨h6, rfl⟩, Or.inr h6⟩
                | ok plain =>
                  rw [hdec] at h
                  simp only [] at h
                  cases him : importM plain with
                  | none =>
                    rw [him] at h
                    simp only [] at h
                    injection h with h1 h2
                    subst h2
                    exact ⟨hf.1, hf.2.1, hf.2.2.1, Or.inr ⟨h6, rfl⟩, Or.inr h6⟩
                  | some m =>
                    rw [him] at h
                    simp only [] at h
                    injection h with h1 h2
                    exact Except.noConfusion h1
          · rw [if_neg h6] at h
            by_cases h7 : cmdId = 7
            · rw [if_pos h7] at h
              unfold invoke_export_aes_key at h
              cases hlk : load_ta_aes_key st with
              | error e0 =>
                rw [hlk] at h
                simp only [] at h
                injection h with h1 h2
                subst h2
                exact ⟨rfl, rfl, rfl, Or.inl rfl, Or.inl rfl⟩
              | ok k =>
                rw [hlk] at h
                simp only [] at h
                injection h with h1 h2
                exact Except.noConfusion h1
            · rw [if_neg h7] at h
              injection h with h1 h2
              subst h2
              exact ⟨rfl, rfl, rfl, Or.inl rfl, Or.inl rfl⟩

/-- Witness for C4 (amended): a `begin_model_load` (4) against a state
with no provisioned key fails with `ItemNotFound`, and the amended
conclusion holds there. -/
theorem C4_atomicity_amended_witness :
    ({ keyStore := none, storedModel := none, keyMgr := none,
       model := none, modelBuf := [5] } : TaState Unit).model =
      ({ keyStore := none, storedModel := none, keyMgr := none,
         model := none, modelBuf := [5] } : TaState Unit).model ∧
    ({ keyStore := none, storedModel := none, keyMgr := none,
       model := none, modelBuf := [5] } : TaState Unit).keyStore =
      ({ keyStore := none, storedModel := none, keyMgr := none,
         model := none, modelBuf := [5] } : TaState Unit).keyStore ∧
    ({ keyStore := none, storedModel := none, keyMgr := none,
       model := none, modelBuf := [5] } : TaState Unit).storedModel =
      ({ keyStore := none, storedModel := none, keyMgr := none,
         model := none, modelBuf := [5] } : TaState Unit).storedModel ∧
    (({ keyStore := none, storedModel := none, keyMgr := none,
        model := none, modelBuf := [5] } : TaState Unit).modelBuf =
      ({ keyStore := none, storedModel := none, keyMgr := none,
         model := none, modelBuf := [5] } : TaState Unit).modelBuf ∨
      ((4:Nat) = 6 ∧
        ({ keyStore := none, storedModel := none, keyMgr := none,
           model := none, modelBuf := [5] } : TaState Unit).modelBuf = [])) ∧
    (({ keyStore := none, storedModel := none, keyMgr := none,
        model := none, modelBuf := [5] } : TaState Unit).keyMgr =
      ({ keyStore := none, storedModel := none, keyMgr := none,
         model := none, modelBuf := [5] } : TaState Unit).keyMgr ∨ (4:Nat) = 6) :=
  C4_atomicity_amended (fun _ b => b) 16 (fun _ => (none : Option Unit))
    (fun _ (_ : Unit) => 0) 4 [] []
    ({ keyStore := none, storedModel := none, keyMgr := none,
       model := none, modelBuf := [5] } : TaState Unit)
    ({ keyStore := none, storedModel := none, keyMgr := none,
       model := none, modelBuf := [5] } : TaState Unit)
    .ItemNotFound rfl

/-- C4 is false as stated: `finalize_model_load` on a state with a key
provisioned and a 1-byte accumulation buffer fails with `BadParameters`
(the blob is shorter than 32 bytes), yet the buffer has been emptied —
the failing command did not leave the enclave state unchanged. -/
theorem C4_atomicity_counterexample :
    invoke_command (fun _ b => b) 16 (fun _ => (none : Option Unit))
      (fun _ (_ : Unit) => 0) 6 [] []
      ({ keyStore := some (List.replicate 32 0), storedModel := none,
         keyMgr := some (List.replicate 32 0), model := none,
         modelBuf := [1] } : TaState Unit) =
      (.error .BadParameters,
       { keyStore := some (List.replicate 32 0), storedModel := none,
         keyMgr := some (List.replicate 32 0), model := none,
         modelBuf := [] }) ∧
    ([] : Bytes) ≠ [1] := ⟨rfl, by decide⟩

end EncMnist
